import Mathlib

/-!
Shallow embedding of the pipeline-graph model and differ of
`scripts/pipeline-interceptor.py` (class `GitLabPipelineInterceptor`):
the graph builder `build_job_graph` and the comparison part of
`compare_pipelines`.  Python dicts are modelled as association lists with
insert-or-overwrite semantics (`dictInsert`); a Python set materialised by
`list(set(...))` is modelled by an enumeration function returning the
distinct elements in some order: `comparePipelinesE` is parametric in that
enumeration (CPython's hash-table order is one valid enumeration), and
`compare_pipelines` fixes the first-occurrence enumeration `List.dedup`.
-/

/-- One element of a job record's `needs` list: an object carrying at least
a `name` field (the source reads `n['name']`). -/
structure NeedRef where
  name : String
  deriving DecidableEq

/-- A Job Record as consumed by `build_job_graph`: `name`, `stage`, `status`
are required keys; `dependencies`, `needs`, `when`, `allow_failure` are
optional keys (`none` models an absent key, read via `.get` with a default
in the source). -/
structure JobRecord where
  name : String
  stage : String
  status : String
  dependencies : Option (List String)
  needs : Option (List NeedRef)
  when : Option String
  allow_failure : Option Bool
  deriving DecidableEq

/-- A node of the Pipeline Graph: the value stored under `graph[job['name']]`
by `build_job_graph`. -/
structure JobNode where
  stage : String
  status : String
  dependencies : List String
  needs : List String
  when : String
  allow_failure : Bool
  deriving DecidableEq

/-- A Pipeline Graph: a Python dict from job name to job node, modelled as an
association list whose update semantics are given by `dictInsert`. -/
abbrev Graph := List (String × JobNode)

/-- The key list of a graph (Python `dict.keys()`, in insertion order). -/
def keysG (g : Graph) : List String := g.map Prod.fst

/-- Dict lookup `g[n]` (first entry with the key; keys built by `dictInsert`
are unique). -/
def lookupG (g : Graph) (n : String) : Option JobNode :=
  (g.find? (fun p => p.1 == n)).map Prod.snd

/-- Python dict assignment `g[k] = v`: overwrite in place if the key exists,
otherwise append at the end. -/
def dictInsert (g : Graph) (k : String) (v : JobNode) : Graph :=
  if g.any (fun p => p.1 == k) then
    g.map (fun p => if p.1 == k then (k, v) else p)
  else g ++ [(k, v)]

/-- The node built from one job record, with the source's permissive
defaults: `job.get('dependencies', [])`, `[n['name'] for n in
job.get('needs', [])]`, `job.get('when', 'on_success')`,
`job.get('allow_failure', False)`. -/
def mkNode (job : JobRecord) : JobNode :=
  JobNode.mk job.stage job.status (job.dependencies.getD [])
    ((job.needs.getD []).map NeedRef.name) (job.when.getD "on_success")
    (job.allow_failure.getD false)

/-- `build_job_graph(jobs)`: fold the records into an initially empty dict
with `graph[job['name']] = {...}`. -/
def build_job_graph (jobs : List JobRecord) : Graph :=
  jobs.foldl (fun g job => dictInsert g job.name (mkNode job)) []

/-- One entry of `dependency_changes`: `{"job": ..., "removed": ...,
"added": ...}`. -/
structure DependencyChange where
  job : String
  removed : List String
  added : List String
  deriving DecidableEq

/-- The `comparison` dict assembled by `compare_pipelines`. -/
structure Comparison where
  jobs_added : List String
  jobs_removed : List String
  jobs_modified : List String
  stage_changes : List String
  dependency_changes : List DependencyChange
  deriving DecidableEq

/-- An enumeration function is a valid model of CPython's `list(set(xs))`
when it returns exactly the distinct elements of `xs`, in some order. -/
def ValidEnum (e : List String → List String) : Prop :=
  ∀ xs : List String, (e xs).Perm xs.dedup

/-- The elements of `set(a) - set(b)` (before enumeration). -/
def diffList (a b : List String) : List String :=
  a.filter (fun x => !(b.contains x))

/-- The elements of `set(a) & set(b)` (before enumeration). -/
def interList (a b : List String) : List String :=
  a.filter (fun x => b.contains x)

/-- Python `set(a) == set(b)`. -/
def pySetEqB (a b : List String) : Bool :=
  a.all (fun x => b.contains x) && b.all (fun x => a.contains x)

/-- One iteration of the stage-comparison part of the loop body: for a common
job name, `if j1['stage'] != j2['stage']` append
`f"{job_name}: {j1['stage']} -> {j2['stage']}"`. -/
def stageEntry (n : String) (g1 g2 : Graph) : Option String :=
  match lookupG g1 n, lookupG g2 n with
  | some j1, some j2 =>
    if j1.stage == j2.stage then none
    else some (n ++ ": " ++ j1.stage ++ " -> " ++ j2.stage)
  | _, _ => none

/-- One iteration of the dependency-comparison part of the loop body: for a
common job name, `if set(deps1) != set(deps2)` append
`{"job": n, "removed": list(deps1 - deps2), "added": list(deps2 - deps1)}`,
with `e` materialising the set differences. -/
def depEntry (e : List String → List String) (n : String) (g1 g2 : Graph) :
    Option DependencyChange :=
  match lookupG g1 n, lookupG g2 n with
  | some j1, some j2 =>
    if pySetEqB j1.dependencies j2.dependencies then none
    else some (DependencyChange.mk n
      (e (diffList j1.dependencies j2.dependencies))
      (e (diffList j2.dependencies j1.dependencies)))
  | _, _ => none

/-- The comparison part of `compare_pipelines` (lines 235-262 of the source),
parametric in the set-enumeration function `e` that models CPython's
`list(set(...))` materialisation and set-iteration order. -/
def comparePipelinesE (e : List String → List String) (g1 g2 : Graph) :
    Comparison :=
  Comparison.mk
    (e (diffList (keysG g2) (keysG g1)))
    (e (diffList (keysG g1) (keysG g2)))
    []
    ((e (interList (keysG g1) (keysG g2))).filterMap
      (fun n => stageEntry n g1 g2))
    ((e (interList (keysG g1) (keysG g2))).filterMap
      (fun n => depEntry e n g1 g2))

/-- The differ with the canonical (first-occurrence) enumeration fixed. -/
def compare_pipelines (g1 g2 : Graph) : Comparison :=
  comparePipelinesE List.dedup g1 g2

/-- The last record in `jobs` carrying the name `n` (the record whose fields
win under Python dict overwriting). -/
def lastWithName (jobs : List JobRecord) (n : String) : Option JobRecord :=
  jobs.foldl (fun acc j => if j.name = n then some j else acc) none

/-- The dependencies list stored for name `n` (empty when `n` is absent). -/
def depsOf (g : Graph) (n : String) : List String :=
  ((lookupG g n).map JobNode.dependencies).getD []

/- ### Helper lemmas on the dict model -/

lemma any_key_iff (g : Graph) (k : String) :
    (g.any (fun p => p.1 == k) = true) ↔ k ∈ keysG g := by
  rw [List.any_eq_true]
  constructor
  · rintro ⟨p, hp, hpk⟩
    exact List.mem_map.mpr ⟨p, hp, by simpa using hpk⟩
  · intro hk
    obtain ⟨p, hp, hpk⟩ := List.mem_map.mp hk
    exact ⟨p, hp, by simpa using hpk⟩

lemma keysG_dictInsert (g : Graph) (k : String) (v : JobNode) :
    keysG (dictInsert g k v) =
      if k ∈ keysG g then keysG g else keysG g ++ [k] := by
  unfold dictInsert
  by_cases h : k ∈ keysG g
  · rw [if_pos ((any_key_iff g k).mpr h), if_pos h]
    unfold keysG
    rw [List.map_map]
    apply List.map_congr_left
    intro p _
    by_cases hpk : p.1 = k <;> simp [Function.comp, hpk]
  · rw [if_neg (fun hh => h ((any_key_iff g k).mp hh)), if_neg h]
    simp [keysG]

lemma find?_mapped (g : Graph) (k : String) (v : JobNode) (h : k ∈ keysG g) :
    (g.map (fun p => if p.1 == k then (k, v) else p)).find?
      (fun p => p.1 == k) = some (k, v) := by
  induction g with
  | nil => simp [keysG] at h
  | cons p g ih =>
    by_cases hpk : p.1 = k
    · simp [hpk]
    · have h' : k ∈ keysG g := by
        have hcons : keysG (p :: g) = p.1 :: keysG g := rfl
        rw [hcons] at h
        rcases List.mem_cons.mp h with h1 | h2
        · exact absurd h1.symm hpk
        · exact h2
      simp only [List.map_cons]
      rw [if_neg (by simpa using hpk)]
      rw [List.find?_cons_of_neg _ (by simpa using hpk)]
      exact ih h'

lemma find?_mapped_ne (g : Graph) (k : String) (v : JobNode) (n : String)
    (h : n ≠ k) :
    (g.map (fun p => if p.1 == k then (k, v) else p)).find?
      (fun p => p.1 == n) = g.find? (fun p => p.1 == n) := by
  induction g with
  | nil => rfl
  | cons p g ih =>
    by_cases hpk : p.1 = k
    · simp only [List.map_cons]
      rw [if_pos (by simpa using hpk)]
      rw [List.find?_cons_of_neg _ (by simpa using fun hh => h hh.symm)]
      rw [List.find?_cons_of_neg _ (by simp [hpk]; exact fun hh => h hh.symm)]
      exact ih
    · simp only [List.map_cons]
      rw [if_neg (by simpa using hpk)]
      by_cases hpn : p.1 = n
      · rw [List.find?_cons_of_pos _ (by simpa using hpn),
          List.find?_cons_of_pos _ (by simpa using hpn)]
      · rw [List.find?_cons_of_neg _ (by simpa using hpn),
          List.find?_cons_of_neg _ (by simpa using hpn)]
        exact ih

lemma lookupG_dictInsert_self (g : Graph) (k : String) (v : JobNode) :
    lookupG (dictInsert g k v) k = some v := by
  unfold dictInsert
  by_cases h : g.any (fun p => p.1 == k) = true
  · rw [if_pos h]
    unfold lookupG
    rw [find?_mapped g k v ((any_key_iff g k).mp h)]
    rfl
  · rw [if_neg h]
    unfold lookupG
    rw [List.find?_append]
    have hnone : g.find? (fun p => p.1 == k) = none := by
      rw [List.find?_eq_none]
      intro p hp hbeq
      exact h ((any_key_iff g k).mpr (by
        have : p.1 = k := by simpa using hbeq
        exact this ▸ List.mem_map.mpr ⟨p, hp, rfl⟩))
    rw [hnone]
    simp

lemma lookupG_dictInsert_ne (g : Graph) (k : String) (v : JobNode)
    (n : String) (h : n ≠ k) :
    lookupG (dictInsert g k v) n = lookupG g n := by
  unfold dictInsert
  by_cases hc : g.any (fun p => p.1 == k) = true
  · rw [if_pos hc]
    unfold lookupG
    rw [find?_mapped_ne g k v n h]
  · rw [if_neg hc]
    unfold lookupG
    rw [List.find?_append]
    have hk : (([(k, v)] : Graph).find? (fun p => p.1 == n)) = none := by
      rw [List.find?_eq_none]
      intro p hp hbeq
      have hpk : p = (k, v) := by simpa using hp
      have : p.1 = n := by simpa using hbeq
      exact h (by rw [← this, hpk])
    rw [hk]
    cases g.find? (fun p => p.1 == n) <;> rfl

/- ### Invariants of the graph builder -/

lemma lookupG_build_aux (jobs : List JobRecord) (g : Graph) (n : String) :
    lookupG (jobs.foldl (fun g job => dictInsert g job.name (mkNode job)) g) n
      = jobs.foldl (fun acc j => if j.name = n then some (mkNode j) else acc)
          (lookupG g n) := by
  induction jobs generalizing g with
  | nil => rfl
  | cons j rest ih =>
    simp only [List.foldl_cons]
    rw [ih]
    by_cases h : j.name = n
    · rw [if_pos h, ← h, lookupG_dictInsert_self]
    · rw [if_neg h, lookupG_dictInsert_ne _ _ _ _ (fun hh => h hh.symm)]

lemma foldl_last_map (jobs : List JobRecord) (n : String)
    (o : Option JobRecord) :
    jobs.foldl (fun acc j => if j.name = n then some (mkNode j) else acc)
        (o.map mkNode) =
      (jobs.foldl (fun acc j => if j.name = n then some j else acc) o).map
        mkNode := by
  induction jobs generalizing o with
  | nil => rfl
  | cons j rest ih =>
    simp only [List.foldl_cons]
    by_cases h : j.name = n
    · rw [if_pos h, if_pos h, ← Option.map_some', ih]
    · rw [if_neg h, if_neg h, ih]

lemma mem_keysG_build_aux (jobs : List JobRecord) (g : Graph) (n : String) :
    n ∈ keysG (jobs.foldl (fun g job => dictInsert g job.name (mkNode job)) g)
      ↔ n ∈ keysG g ∨ n ∈ jobs.map JobRecord.name := by
  induction jobs generalizing g with
  | nil => simp
  | cons j rest ih =>
    simp only [List.foldl_cons, List.map_cons, List.mem_cons]
    rw [ih, keysG_dictInsert]
    by_cases h : j.name ∈ keysG g
    · rw [if_pos h]
      constructor
      · tauto
      · rintro (h1 | rfl | h3)
        · exact Or.inl h1
        · exact Or.inl h
        · exact Or.inr h3
    · rw [if_neg h]
      simp only [List.mem_append, List.mem_singleton]
      tauto

lemma nodup_keysG_build_aux (jobs : List JobRecord) (g : Graph)
    (h : (keysG g).Nodup) :
    (keysG (jobs.foldl (fun g job => dictInsert g job.name (mkNode job))
      g)).Nodup := by
  induction jobs generalizing g with
  | nil => exact h
  | cons j rest ih =>
    simp only [List.foldl_cons]
    apply ih
    rw [keysG_dictInsert]
    by_cases hm : j.name ∈ keysG g
    · rw [if_pos hm]; exact h
    · rw [if_neg hm]
      exact List.Nodup.append h (List.nodup_singleton _)
        (fun x hx hx2 => hm ((List.mem_singleton.mp hx2) ▸ hx))

/-- C1: `build_job_graph` yields a graph with exactly one node per distinct
job name of the input (keys are duplicate-free and are exactly the input
names); when records share a name, the stored node is built from the record
appearing last in the sequence (last-write-wins), and no error is raised
(the builder is a total function). -/
theorem build_job_graph_one_node_last_write_wins (jobs : List JobRecord) :
    (keysG (build_job_graph jobs)).Nodup ∧
      (∀ n, n ∈ keysG (build_job_graph jobs) ↔ n ∈ jobs.map JobRecord.name) ∧
      (∀ n, lookupG (build_job_graph jobs) n =
        (lastWithName jobs n).map mkNode) := by
  refine ⟨?_, ?_, ?_⟩
  · exact nodup_keysG_build_aux jobs [] List.nodup_nil
  · intro n
    rw [build_job_graph, mem_keysG_build_aux]
    simp [keysG]
  · intro n
    rw [build_job_graph, lookupG_build_aux, lastWithName]
    have h0 : lookupG [] n = (none : Option JobRecord).map mkNode := rfl
    rw [h0, foldl_last_map]

/-- C8: a job record whose optional fields `dependencies`, `needs`, `when`
and `allow_failure` are all absent is built into a node with
`dependencies = []`, `needs = []`, `when = "on_success"` and
`allow_failure = false`, with no error raised. -/
theorem build_job_graph_permissive_defaults (j : JobRecord)
    (h1 : j.dependencies = none) (h2 : j.needs = none)
    (h3 : j.when = none) (h4 : j.allow_failure = none) :
    lookupG (build_job_graph [j]) j.name =
      some (JobNode.mk j.stage j.status [] [] "on_success" false) := by
  show lookupG (dictInsert [] j.name (mkNode j)) j.name = _
  rw [lookupG_dictInsert_self]
  rw [mkNode, h1, h2, h3, h4]
  rfl

theorem build_job_graph_permissive_defaults_witness :
    lookupG (build_job_graph
        [JobRecord.mk "unit-test" "test" "success" none none none none])
        "unit-test" =
      some (JobNode.mk "test" "success" [] [] "on_success" false) :=
  build_job_graph_permissive_defaults
    (JobRecord.mk "unit-test" "test" "success" none none none none)
    rfl rfl rfl rfl

/- ### Helper lemmas on the set model -/

lemma contains_iff (l : List String) (x : String) :
    l.contains x = true ↔ x ∈ l := List.elem_iff

lemma mem_diffList (a b : List String) (x : String) :
    x ∈ diffList a b ↔ x ∈ a ∧ x ∉ b := by
  rw [diffList, List.mem_filter]
  simp [contains_iff]

lemma mem_interList (a b : List String) (x : String) :
    x ∈ interList a b ↔ x ∈ a ∧ x ∈ b := by
  rw [interList, List.mem_filter]
  simp [contains_iff]

lemma pySetEqB_iff (a b : List String) :
    pySetEqB a b = true ↔ ((∀ x ∈ a, x ∈ b) ∧ ∀ x ∈ b, x ∈ a) := by
  rw [pySetEqB, Bool.and_eq_true, List.all_eq_true, List.all_eq_true]
  simp [contains_iff]

lemma pySetEqB_self (a : List String) : pySetEqB a a = true := by
  rw [pySetEqB_iff]
  exact ⟨fun x hx => hx, fun x hx => hx⟩

lemma diffList_self (a : List String) : diffList a a = [] := by
  rw [diffList, List.filter_eq_nil_iff]
  intro x hx
  simp [contains_iff, hx]

lemma lookupG_isSome (g : Graph) (n : String) :
    (lookupG g n).isSome = true ↔ n ∈ keysG g := by
  rw [lookupG, Option.isSome_map', List.find?_isSome]
  constructor
  · rintro ⟨p, hp, hpk⟩
    exact List.mem_map.mpr ⟨p, hp, by simpa using hpk⟩
  · intro hk
    obtain ⟨p, hp, hpk⟩ := List.mem_map.mp hk
    exact ⟨p, hp, by simpa using hpk⟩

lemma lookupG_mem_keysG (g : Graph) (n : String) (j : JobNode)
    (h : lookupG g n = some j) : n ∈ keysG g :=
  (lookupG_isSome g n).mp (by rw [h]; rfl)

lemma exists_lookupG_of_mem (g : Graph) (n : String) (h : n ∈ keysG g) :
    ∃ j, lookupG g n = some j :=
  Option.isSome_iff_exists.mp ((lookupG_isSome g n).mpr h)

/- ### Claims about the differ: exact name sets, symmetry, fixed fields -/

/-- C2: `jobs_added` is exactly the set of names present in the candidate
graph and absent from the baseline, and `jobs_removed` exactly the set of
names present in the baseline and absent from the candidate (both lists are
duplicate-free, so each is a faithful set). -/
theorem compare_pipelines_added_removed_exact (g1 g2 : Graph) :
    ((compare_pipelines g1 g2).jobs_added.Nodup ∧
      ∀ n, n ∈ (compare_pipelines g1 g2).jobs_added ↔
        n ∈ keysG g2 ∧ n ∉ keysG g1) ∧
    ((compare_pipelines g1 g2).jobs_removed.Nodup ∧
      ∀ n, n ∈ (compare_pipelines g1 g2).jobs_removed ↔
        n ∈ keysG g1 ∧ n ∉ keysG g2) := by
  have hadd : (compare_pipelines g1 g2).jobs_added
      = (diffList (keysG g2) (keysG g1)).dedup := rfl
  have hrem : (compare_pipelines g1 g2).jobs_removed
      = (diffList (keysG g1) (keysG g2)).dedup := rfl
  refine ⟨⟨?_, ?_⟩, ?_, ?_⟩
  · rw [hadd]; exact List.nodup_dedup _
  · intro n; rw [hadd, List.mem_dedup, mem_diffList]
  · rw [hrem]; exact List.nodup_dedup _
  · intro n; rw [hrem, List.mem_dedup, mem_diffList]

/-- C7: job-name symmetry of the differ: the added set of `compare(A, B)` is
the removed set of `compare(B, A)`, and conversely. -/
theorem compare_pipelines_added_removed_symm (g1 g2 : Graph) :
    (compare_pipelines g1 g2).jobs_added =
        (compare_pipelines g2 g1).jobs_removed ∧
      (compare_pipelines g1 g2).jobs_removed =
        (compare_pipelines g2 g1).jobs_added :=
  ⟨rfl, rfl⟩

/-- C10: the comparison structure carries a `jobs_modified` field that is
initialised to the empty list and never written by any code path, so it is
empty for every pair of input graphs. -/
theorem compare_pipelines_jobs_modified_always_empty (g1 g2 : Graph) :
    (compare_pipelines g1 g2).jobs_modified = [] := rfl

lemma compare_pipelines_self (g : Graph) :
    compare_pipelines g g = Comparison.mk [] [] [] [] [] := by
  rw [compare_pipelines, comparePipelinesE, diffList_self]
  simp only [List.dedup_nil]
  congr 1
  · rw [List.filterMap_eq_nil_iff]
    intro n _
    rw [stageEntry]
    cases h : lookupG g n with
    | none => rfl
    | some j => simp [h]
  · rw [List.filterMap_eq_nil_iff]
    intro n _
    rw [depEntry]
    cases h : lookupG g n with
    | none => rfl
    | some j => simp [h, pySetEqB_self]

/-- C6: comparing a pipeline graph built from any job collection with itself
yields empty `jobs_added`, `jobs_removed`, `stage_changes` and
`dependency_changes` (and the always-empty `jobs_modified`). -/
theorem compare_pipelines_build_self_empty (J : List JobRecord) :
    compare_pipelines (build_job_graph J) (build_job_graph J) =
      Comparison.mk [] [] [] [] [] :=
  compare_pipelines_self (build_job_graph J)

/- ### Stage changes and dependency changes over the intersection -/

/-- Restated from the spec's words, for comparison with the source
definition: the `stage_changes` entry contributed by name `n` exists exactly
when `n` is present in both graphs with stages differing by value equality,
and is formatted `<name>: <old> -> <new>`. -/
def stageChangeSpec (g1 g2 : Graph) (n : String) : Option String :=
  match lookupG g1 n, lookupG g2 n with
  | some j1, some j2 =>
    if j1.stage = j2.stage then none
    else some (n ++ ": " ++ j1.stage ++ " -> " ++ j2.stage)
  | _, _ => none

/-- Restated from the spec's words: the `dependency_changes` entry
contributed by name `n` exists exactly when `n` is present in both graphs
with `dependencies` differing as unordered sets, and carries
`removed = baseline − candidate` and `added = candidate − baseline`. -/
def depChangeSpec (g1 g2 : Graph) (n : String) : Option DependencyChange :=
  match lookupG g1 n, lookupG g2 n with
  | some j1, some j2 =>
    if (∀ x ∈ j1.dependencies, x ∈ j2.dependencies) ∧
        (∀ x ∈ j2.dependencies, x ∈ j1.dependencies) then none
    else some (DependencyChange.mk n
      ((j1.dependencies.filter (fun x => decide (x ∉ j2.dependencies))).dedup)
      ((j2.dependencies.filter (fun x => decide (x ∉ j1.dependencies))).dedup))
  | _, _ => none

lemma filterMap_congr_mem {α β : Type} {l : List α} {f g : α → Option β}
    (h : ∀ a ∈ l, f a = g a) : l.filterMap f = l.filterMap g := by
  induction l with
  | nil => rfl
  | cons a l ih =>
    rw [List.filterMap_cons, List.filterMap_cons, h a (List.mem_cons_self a l),
      ih (fun b hb => h b (List.mem_cons_of_mem a hb))]

lemma not_contains_eq_decide (b : List String) (x : String) :
    (!(b.contains x)) = decide (x ∉ b) := by
  by_cases h : x ∈ b
  · rw [(contains_iff b x).mpr h]
    simp [h]
  · have hc : b.contains x = false := by
      cases hc : b.contains x
      · rfl
      · exact absurd ((contains_iff b x).mp hc) h
    rw [hc]
    simp [h]

lemma lookupG_eq_none_of_not_mem (g : Graph) (n : String)
    (h : n ∉ keysG g) : lookupG g n = none :=
  Option.not_isSome_iff_eq_none.mp
    (fun hs => h ((lookupG_isSome g n).mp (by simpa using hs)))

lemma common_eq_filter (g1 g2 : Graph) (h1 : (keysG g1).Nodup) :
    (interList (keysG g1) (keysG g2)).dedup =
      (keysG g1).filter (fun n => (keysG g2).contains n) :=
  List.dedup_eq_self.mpr (h1.filter _)

/-- C3: `stage_changes` has exactly one entry, formatted
`<name>: <old> -> <new>`, for each job name present in both graphs whose
stage differs by value equality; an equal-stage name or a name present in
only one graph contributes nothing. -/
theorem compare_pipelines_stage_changes_exact (g1 g2 : Graph)
    (h1 : (keysG g1).Nodup) :
    (compare_pipelines g1 g2).stage_changes =
      (keysG g1).filterMap (stageChangeSpec g1 g2) := by
  have hsc : (compare_pipelines g1 g2).stage_changes =
      ((interList (keysG g1) (keysG g2)).dedup).filterMap
        (fun n => stageEntry n g1 g2) := rfl
  rw [hsc, common_eq_filter g1 g2 h1, List.filterMap_filter]
  apply filterMap_congr_mem
  intro n hn
  by_cases hm : n ∈ keysG g2
  · rw [if_pos (by simpa using (contains_iff (keysG g2) n).mpr hm)]
    obtain ⟨j1, hj1⟩ := exists_lookupG_of_mem g1 n hn
    obtain ⟨j2, hj2⟩ := exists_lookupG_of_mem g2 n hm
    rw [stageEntry, stageChangeSpec, hj1, hj2]
    by_cases hs : j1.stage = j2.stage <;> simp [hs]
  · rw [if_neg (by
      intro hc
      exact hm ((contains_iff (keysG g2) n).mp (by simpa using hc)))]
    rw [stageChangeSpec, lookupG_eq_none_of_not_mem g2 n hm]
    cases lookupG g1 n <;> rfl

def exStageA : Graph := build_job_graph
  [JobRecord.mk "build" "compile" "created" none none none none]

def exStageB : Graph := build_job_graph
  [JobRecord.mk "build" "link" "created" none none none none]

theorem compare_pipelines_stage_changes_exact_witness :
    (keysG exStageA).Nodup ∧
      ((compare_pipelines exStageA exStageB).stage_changes =
          (keysG exStageA).filterMap (stageChangeSpec exStageA exStageB) ∧
        (compare_pipelines exStageA exStageB).stage_changes =
          ["build: compile -> link"]) :=
  ⟨by decide,
    compare_pipelines_stage_changes_exact exStageA exStageB (by decide),
    by decide⟩

/-- C4: `dependency_changes` has exactly one entry for each job name present
in both graphs whose `dependencies` differ as unordered sets, carrying
`removed = baseline − candidate` and `added = candidate − baseline` (as
duplicate-free lists); dependencies lists equal as sets — even when
differently ordered — contribute nothing, as do names present in only one
graph. -/
theorem compare_pipelines_dependency_changes_exact (g1 g2 : Graph)
    (h1 : (keysG g1).Nodup) :
    (compare_pipelines g1 g2).dependency_changes =
      (keysG g1).filterMap (depChangeSpec g1 g2) := by
  have hdc : (compare_pipelines g1 g2).dependency_changes =
      ((interList (keysG g1) (keysG g2)).dedup).filterMap
        (fun n => depEntry List.dedup n g1 g2) := rfl
  rw [hdc, common_eq_filter g1 g2 h1, List.filterMap_filter]
  apply filterMap_congr_mem
  intro n hn
  by_cases hm : n ∈ keysG g2
  · rw [if_pos (by simpa using (contains_iff (keysG g2) n).mpr hm)]
    obtain ⟨j1, hj1⟩ := exists_lookupG_of_mem g1 n hn
    obtain ⟨j2, hj2⟩ := exists_lookupG_of_mem g2 n hm
    simp only [depEntry, depChangeSpec, hj1, hj2]
    by_cases hc : (∀ x ∈ j1.dependencies, x ∈ j2.dependencies) ∧
        ∀ x ∈ j2.dependencies, x ∈ j1.dependencies
    · rw [if_pos ((pySetEqB_iff _ _).mpr hc), if_pos hc]
    · have hb : pySetEqB j1.dependencies j2.dependencies = false := by
        cases hpb : pySetEqB j1.dependencies j2.dependencies
        · rfl
        · exact absurd ((pySetEqB_iff _ _).mp hpb) hc
      rw [hb, if_neg hc]
      simp only [Bool.false_eq_true, if_false]
      rw [diffList, diffList,
        List.filter_congr (fun x _ => not_contains_eq_decide
          j2.dependencies x),
        List.filter_congr (fun x _ => not_contains_eq_decide
          j1.dependencies x)]
  · rw [if_neg (by
      intro hc
      exact hm ((contains_iff (keysG g2) n).mp (by simpa using hc)))]
    rw [depChangeSpec, lookupG_eq_none_of_not_mem g2 n hm]
    cases lookupG g1 n <;> rfl

def exDepA : Graph := build_job_graph
  [JobRecord.mk "deploy" "deploy" "created" (some ["build", "test"])
    none none none]

def exDepB : Graph := build_job_graph
  [JobRecord.mk "deploy" "deploy" "created" (some ["test"])
    none none none]

theorem compare_pipelines_dependency_changes_exact_witness :
    (keysG exDepA).Nodup ∧
      ((compare_pipelines exDepA exDepB).dependency_changes =
          (keysG exDepA).filterMap (depChangeSpec exDepA exDepB) ∧
        (compare_pipelines exDepA exDepB).dependency_changes =
          [DependencyChange.mk "deploy" ["build"] []]) :=
  ⟨by decide,
    compare_pipelines_dependency_changes_exact exDepA exDepB (by decide),
    by decide⟩

/- ### The differ never consults the `needs` field -/

/-- C5: when every job name common to the two graphs has `dependencies`
equal as unordered sets, `dependency_changes` is empty; the `needs` fields
are never consulted by the differ, so `needs`-only changes never appear. -/
theorem compare_pipelines_ignores_needs (g1 g2 : Graph)
    (h : ∀ n ∈ keysG g1, n ∈ keysG g2 →
      ((∀ x ∈ depsOf g1 n, x ∈ depsOf g2 n) ∧
        ∀ x ∈ depsOf g2 n, x ∈ depsOf g1 n)) :
    (compare_pipelines g1 g2).dependency_changes = [] := by
  have hdc : (compare_pipelines g1 g2).dependency_changes =
      ((interList (keysG g1) (keysG g2)).dedup).filterMap
        (fun n => depEntry List.dedup n g1 g2) := rfl
  rw [hdc, List.filterMap_eq_nil_iff]
  intro n hn
  rw [List.mem_dedup, mem_interList] at hn
  obtain ⟨hn1, hn2⟩ := hn
  obtain ⟨j1, hj1⟩ := exists_lookupG_of_mem g1 n hn1
  obtain ⟨j2, hj2⟩ := exists_lookupG_of_mem g2 n hn2
  have hd := h n hn1 hn2
  rw [depsOf, depsOf, hj1, hj2] at hd
  simp only [Option.map_some', Option.getD_some] at hd
  simp only [depEntry, hj1, hj2]
  rw [if_pos ((pySetEqB_iff _ _).mpr hd)]

def exNeedsA : Graph := build_job_graph
  [JobRecord.mk "deploy" "deploy" "created" (some ["test", "build"])
    (some [NeedRef.mk "build"]) none none]

def exNeedsB : Graph := build_job_graph
  [JobRecord.mk "deploy" "deploy" "created" (some ["build", "test"])
    (some [NeedRef.mk "test", NeedRef.mk "build"]) none none]

theorem compare_pipelines_ignores_needs_witness :
    (∀ n ∈ keysG exNeedsA, n ∈ keysG exNeedsB →
        ((∀ x ∈ depsOf exNeedsA n, x ∈ depsOf exNeedsB n) ∧
          ∀ x ∈ depsOf exNeedsB n, x ∈ depsOf exNeedsA n)) ∧
      ((compare_pipelines exNeedsA exNeedsB).dependency_changes = [] ∧
        lookupG exNeedsA "deploy" ≠ lookupG exNeedsB "deploy") :=
  ⟨by decide,
    compare_pipelines_ignores_needs exNeedsA exNeedsB (by decide),
    by decide⟩

/- ### Determinism and set-enumeration order -/

lemma validEnum_dedup : ValidEnum List.dedup := fun _ => List.Perm.refl _

/-- A second valid enumeration of a Python set: the distinct elements in
reversed first-occurrence order (CPython's hash order under some seed is
some such enumeration; which one is implementation-defined). -/
def enumRev (xs : List String) : List String := xs.dedup.reverse

lemma validEnum_enumRev : ValidEnum enumRev :=
  fun xs => List.reverse_perm xs.dedup

def exOrdA : Graph := build_job_graph []

def exOrdB : Graph := build_job_graph
  [JobRecord.mk "lint" "test" "created" none none none none,
    JobRecord.mk "unit" "test" "created" none none none none]

/-- C9 counterexample: the serialized ordering of the set-valued fields is
an iteration-order artifact, not a function of the input graphs alone: two
valid set-enumeration orders (two admissible `list(set(...))`
materialisations, as arise under different hash seeds) produce unequal
serialized results on the same pair of graphs. -/
theorem compare_pipelines_enum_order_leaks :
    ValidEnum List.dedup ∧ ValidEnum enumRev ∧
      comparePipelinesE List.dedup exOrdA exOrdB ≠
        comparePipelinesE enumRev exOrdA exOrdB :=
  ⟨validEnum_dedup, validEnum_enumRev, by decide⟩

/-- The job name recorded by the dependency-comparison loop body for a
common name `n`, independent of the enumeration. -/
def depFlag (n : String) (g1 g2 : Graph) : Option String :=
  match lookupG g1 n, lookupG g2 n with
  | some j1, some j2 =>
    if pySetEqB j1.dependencies j2.dependencies then none else some n
  | _, _ => none

lemma depEntry_map_job (e : List String → List String) (n : String)
    (g1 g2 : Graph) :
    (depEntry e n g1 g2).map DependencyChange.job = depFlag n g1 g2 := by
  cases hl1 : lookupG g1 n with
  | none => simp [depEntry, depFlag, hl1]
  | some j1 =>
    cases hl2 : lookupG g2 n with
    | none => simp [depEntry, depFlag, hl1, hl2]
    | some j2 =>
      simp only [depEntry, depFlag, hl1, hl2]
      by_cases hc : pySetEqB j1.dependencies j2.dependencies = true <;>
        simp [hc]

/-- C9 amended: with the set-enumeration order fixed (one process, one hash
seed) the differ is a pure function of the two graphs, and across any two
valid enumeration orders the results agree exactly up to ordering:
`jobs_added`, `jobs_removed` and `stage_changes` are permutations of each
other, `jobs_modified` is identical, the job names carrying a dependency
change are a permutation, and the matching `dependency_changes` entries
agree up to permutation of their `removed`/`added` lists. -/
theorem compare_pipelines_deterministic_up_to_enum
    (e1 e2 : List String → List String)
    (h1 : ValidEnum e1) (h2 : ValidEnum e2) (g1 g2 : Graph) :
    (comparePipelinesE e1 g1 g2).jobs_added.Perm
        (comparePipelinesE e2 g1 g2).jobs_added ∧
      (comparePipelinesE e1 g1 g2).jobs_removed.Perm
        (comparePipelinesE e2 g1 g2).jobs_removed ∧
      (comparePipelinesE e1 g1 g2).jobs_modified =
        (comparePipelinesE e2 g1 g2).jobs_modified ∧
      (comparePipelinesE e1 g1 g2).stage_changes.Perm
        (comparePipelinesE e2 g1 g2).stage_changes ∧
      ((comparePipelinesE e1 g1 g2).dependency_changes.map
          DependencyChange.job).Perm
        ((comparePipelinesE e2 g1 g2).dependency_changes.map
          DependencyChange.job) ∧
      ∀ d1 ∈ (comparePipelinesE e1 g1 g2).dependency_changes,
        ∃ d2 ∈ (comparePipelinesE e2 g1 g2).dependency_changes,
          d1.job = d2.job ∧ d1.removed.Perm d2.removed ∧
            d1.added.Perm d2.added := by
  have hperm : ∀ xs, (e1 xs).Perm (e2 xs) :=
    fun xs => (h1 xs).trans (h2 xs).symm
  refine ⟨hperm _, hperm _, rfl, ?_, ?_, ?_⟩
  · exact (hperm (interList (keysG g1) (keysG g2))).filterMap
      (fun n => stageEntry n g1 g2)
  · have ej : ∀ e : List String → List String,
        (comparePipelinesE e g1 g2).dependency_changes.map
            DependencyChange.job =
          (e (interList (keysG g1) (keysG g2))).filterMap
            (fun n => depFlag n g1 g2) := by
      intro e
      have hpr : (comparePipelinesE e g1 g2).dependency_changes =
          (e (interList (keysG g1) (keysG g2))).filterMap
            (fun n => depEntry e n g1 g2) := rfl
      rw [hpr, List.map_filterMap]
      exact filterMap_congr_mem (fun n _ => depEntry_map_job e n g1 g2)
    rw [ej e1, ej e2]
    exact (hperm (interList (keysG g1) (keysG g2))).filterMap
      (fun n => depFlag n g1 g2)
  · intro d1 hd1
    have hd1' : d1 ∈ (e1 (interList (keysG g1) (keysG g2))).filterMap
        (fun n => depEntry e1 n g1 g2) := hd1
    rw [List.mem_filterMap] at hd1'
    obtain ⟨n, hn, hdn⟩ := hd1'
    cases hl1 : lookupG g1 n with
    | none => simp [depEntry, hl1] at hdn
    | some j1 =>
      cases hl2 : lookupG g2 n with
      | none => simp [depEntry, hl1, hl2] at hdn
      | some j2 =>
        simp only [depEntry, hl1, hl2] at hdn
        by_cases hc : pySetEqB j1.dependencies j2.dependencies = true
        · rw [if_pos hc] at hdn
          exact absurd hdn (by simp)
        · rw [if_neg hc] at hdn
          have hd1eq := Option.some.inj hdn
          refine ⟨DependencyChange.mk n
              (e2 (diffList j1.dependencies j2.dependencies))
              (e2 (diffList j2.dependencies j1.dependencies)), ?_, ?_, ?_, ?_⟩
          · exact List.mem_filterMap.mpr ⟨n, (hperm _).mem_iff.mp hn, by
              simp only [depEntry, hl1, hl2]
              rw [if_neg hc]⟩
          · rw [← hd1eq]
          · rw [← hd1eq]
            exact hperm _
          · rw [← hd1eq]
            exact hperm _

def exMixA : Graph := build_job_graph
  [JobRecord.mk "deploy" "deploy" "created" (some ["build", "test"])
      none none none,
    JobRecord.mk "lint" "check" "created" none none none none,
    JobRecord.mk "old-job" "cleanup" "created" none none none none]

def exMixB : Graph := build_job_graph
  [JobRecord.mk "deploy" "deploy" "created" (some ["test", "docs"])
      none none none,
    JobRecord.mk "lint" "verify" "created" none none none none,
    JobRecord.mk "new-job" "cleanup" "created" none none none none]

theorem compare_pipelines_deterministic_up_to_enum_witness :
    ValidEnum List.dedup ∧ ValidEnum enumRev ∧
      ((comparePipelinesE List.dedup exMixA exMixB).jobs_added.Perm
          (comparePipelinesE enumRev exMixA exMixB).jobs_added ∧
        (comparePipelinesE List.dedup exMixA exMixB).jobs_removed.Perm
          (comparePipelinesE enumRev exMixA exMixB).jobs_removed ∧
        (comparePipelinesE List.dedup exMixA exMixB).jobs_modified =
          (comparePipelinesE enumRev exMixA exMixB).jobs_modified ∧
        (comparePipelinesE List.dedup exMixA exMixB).stage_changes.Perm
          (comparePipelinesE enumRev exMixA exMixB).stage_changes ∧
        ((comparePipelinesE List.dedup exMixA exMixB).dependency_changes.map
            DependencyChange.job).Perm
          ((comparePipelinesE enumRev exMixA exMixB).dependency_changes.map
            DependencyChange.job) ∧
        ∀ d1 ∈ (comparePipelinesE List.dedup exMixA exMixB).dependency_changes,
          ∃ d2 ∈ (comparePipelinesE enumRev exMixA exMixB).dependency_changes,
            d1.job = d2.job ∧ d1.removed.Perm d2.removed ∧
              d1.added.Perm d2.added) :=
  ⟨validEnum_dedup, validEnum_enumRev,
    compare_pipelines_deterministic_up_to_enum List.dedup enumRev
      validEnum_dedup validEnum_enumRev exMixA exMixB⟩
